import Mathlib

/-!
Verification of the Lorenz-63 forward model and ensemble Kalman filter
of the "Exploring our Magnetic Earth" data-assimilation notebooks.

The repository ships two notebooks (`01a_lorenz.ipynb` and the EnKF
notebook) that drive two small numerical components, the Lorenz-63
forward integrator `forwardModel.forwardModel_r` and the ensemble
Kalman filter `myEnKF.myEnKF`.  The notebooks (the drivers) are in the
repository; the two python modules themselves are imported but their
files are not part of the source tree, so the integrator and the
filter are modelled here from the specification, while the driver code
(observation-operator construction, synthetic-observation catalog) is
embedded directly from the notebook cells.

All arithmetic is embedded over `ℚ` (the python code computes with
IEEE double precision; the claims under study are structural —
which recurrence is applied, which shapes are produced, which inputs
fail — and are insensitive to the rounding of individual operations).
-/

namespace MagneticEarth

/-- The model state: a 3-vector (X, Y, Z). -/
abbrev State := Fin 3 → ℚ

/-- Modelled from the spec: the right-hand side of the Lorenz-63 system
integrated by the missing `forwardModel.py`,
`dX/dt = -Pr*(X - Y)`, `dY/dt = -X*Z + r*X - Y`, `dZ/dt = X*Y - b*Z`. -/
def lorenzRHS (r pr b : ℚ) (x : State) : State :=
  ![-pr * (x 0 - x 1), -(x 0) * (x 2) + r * (x 0) - x 1, (x 0) * (x 1) - b * (x 2)]

/-- Modelled from the spec: one explicit 4th-order Runge-Kutta step of size
`dt` for the Lorenz-63 system. -/
def rk4Step (dt r pr b : ℚ) (x : State) : State :=
  let k1 := lorenzRHS r pr b x
  let k2 := lorenzRHS r pr b (x + (dt / 2) • k1)
  let k3 := lorenzRHS r pr b (x + (dt / 2) • k2)
  let k4 := lorenzRHS r pr b (x + dt • k3)
  x + (dt / 6) • (k1 + (2 : ℚ) • k2 + (2 : ℚ) • k3 + k4)

/-- Executable strict-increase test on a list of rationals. -/
def increasingQ : List ℚ → Bool
  | a :: b :: rest => decide (a < b) && increasingQ (b :: rest)
  | _ => true

/-- Executable uniform-spacing test: every consecutive gap equals `dt`. -/
def uniformQ (dt : ℚ) : List ℚ → Bool
  | a :: b :: rest => decide (b - a = dt) && uniformQ dt (b :: rest)
  | _ => true

/-- Modelled from the spec: the missing `forwardModel.forwardModel_r`.
Given the initial state, the array of discrete times, and the parameter
triple (supercriticality ratio `r`, Prandtl number `pr`, geometric factor
`b`), it returns the trajectory: one state per time point, column 0 being
the initial state, each following column one RK4 step of size
`Δt = time[1] - time[0]` (the uniform step inferred from consecutive
entries) applied to the previous column.  Per the spec's failure policy
("Fails only if the time array is empty or not increasing"), the model
fails — returns `none` — exactly when the time array is empty or not
strictly increasing.  The function is pure: the output is a function of
the arguments alone. -/
def forwardModel_r (x0 : State) (time : List ℚ) (r pr b : ℚ) :
    Option (List State) :=
  if time ≠ [] ∧ increasingQ time = true then
    let dt := time.getD 1 0 - time.getD 0 0
    some ((List.range time.length).map (fun n => (rk4Step dt r pr b)^[n] x0))
  else none

/-- Auxiliary: the trajectory produced on a valid time array, its length,
and its `j`-th column. -/
theorem forwardModel_r_getD (x0 : State) (time : List ℚ) (r pr b : ℚ)
    (hne : time ≠ []) (hmono : increasingQ time = true) (j : ℕ)
    (hj : j < time.length) :
    ∃ traj, forwardModel_r x0 time r pr b = some traj ∧
      traj.length = time.length ∧
      traj.getD j 0 = (rk4Step (time.getD 1 0 - time.getD 0 0) r pr b)^[j] x0 := by
  refine ⟨_, by rw [forwardModel_r, if_pos ⟨hne, hmono⟩], by simp, ?_⟩
  simp [List.getD, hj]

/-- Claim C1. For every 3-vector initial state, every parameter triple
(Pr, r, b), and every uniformly spaced strictly increasing time array, the
forward model produces each column after the first by applying exactly one
explicit 4th-order Runge-Kutta step of size `Δt` (the spacing inferred from
the first two entries) to the previous column, for the Lorenz-63 system
`dX/dt = -Pr*(X - Y)`, `dY/dt = -X*Z + r*X - Y`, `dZ/dt = X*Y - b*Z`. -/
theorem forwardModel_r_is_rk4 (x0 : State) (time : List ℚ) (r pr b : ℚ)
    (hne : time ≠ []) (hmono : increasingQ time = true)
    (hunif : uniformQ (time.getD 1 0 - time.getD 0 0) time = true) :
    ∃ traj, forwardModel_r x0 time r pr b = some traj ∧
      traj.length = time.length ∧
      ∀ j, j + 1 < traj.length →
        traj.getD (j + 1) 0 =
          rk4Step (time.getD 1 0 - time.getD 0 0) r pr b (traj.getD j 0) := by
  refine ⟨_, by rw [forwardModel_r, if_pos ⟨hne, hmono⟩], by simp, ?_⟩
  intro j hj
  simp only [List.length_map, List.length_range] at hj
  have hj1 : j < time.length := Nat.lt_of_succ_lt hj
  simp [List.getD, hj, hj1, Function.iterate_succ_apply']

/-- Witness for C1 at a concrete input. -/
theorem forwardModel_r_is_rk4_check :
    (([0, 1, 2] : List ℚ) ≠ [] ∧ increasingQ [0, 1, 2] = true ∧
      uniformQ (([0, 1, 2] : List ℚ).getD 1 0 - ([0, 1, 2] : List ℚ).getD 0 0)
        [0, 1, 2] = true) ∧
    ∃ traj, forwardModel_r ![0, 1, 0] [0, 1, 2] 28 10 (8/3) = some traj ∧
      traj.length = ([0, 1, 2] : List ℚ).length ∧
      ∀ j, j + 1 < traj.length →
        traj.getD (j + 1) 0 =
          rk4Step (([0, 1, 2] : List ℚ).getD 1 0 - ([0, 1, 2] : List ℚ).getD 0 0)
            28 10 (8/3) (traj.getD j 0) :=
  ⟨⟨by decide, by decide, by norm_num [uniformQ]⟩,
    forwardModel_r_is_rk4 ![0, 1, 0] [0, 1, 2] 28 10 (8/3)
      (by decide) (by decide) (by norm_num [uniformQ])⟩

/-- Claim C2, counterexample. The claim quantifies over *every* non-empty time
array, but the forward model fails (per the spec's own failure policy) on a
non-monotonic time array such as `[1, 0]`: no matrix is produced at all, so
in particular none whose column 0 equals the initial state. -/
theorem forwardModel_r_nonmonotonic_counterexample :
    forwardModel_r ![0, 1, 0] [1, 0] 28 10 (8/3) = none ∧
    ¬ ∃ traj, forwardModel_r ![0, 1, 0] [1, 0] 28 10 (8/3) = some traj ∧
        traj.getD 0 0 = ![0, 1, 0] := by
  refine ⟨by rw [forwardModel_r, if_neg (by decide)], ?_⟩
  rintro ⟨traj, htraj, -⟩
  rw [forwardModel_r, if_neg (by decide)] at htraj
  exact Option.noConfusion htraj

/-- Claim C2, amended. For every 3-vector initial state `x0`, every parameter
triple, and every non-empty *strictly increasing* time array with `n`
entries, the forward model returns a trajectory of `n` columns, each column
a 3-vector, whose column 0 equals `x0` exactly; being a plain function of
its arguments, it has no side effects. -/
theorem forwardModel_r_shape (x0 : State) (time : List ℚ) (r pr b : ℚ)
    (hne : time ≠ []) (hmono : increasingQ time = true) :
    ∃ traj, forwardModel_r x0 time r pr b = some traj ∧
      traj.length = time.length ∧ traj.getD 0 0 = x0 := by
  have h0 : 0 < time.length := List.length_pos.mpr hne
  obtain ⟨traj, h1, h2, h3⟩ := forwardModel_r_getD x0 time r pr b hne hmono 0 h0
  exact ⟨traj, h1, h2, by simpa using h3⟩

/-- Witness for C2's amended theorem at a concrete input. -/
theorem forwardModel_r_shape_check :
    (([0, 1, 2] : List ℚ) ≠ [] ∧ increasingQ [0, 1, 2] = true) ∧
    ∃ traj, forwardModel_r ![0, 1, 0] [0, 1, 2] 28 10 (8/3) = some traj ∧
      traj.length = ([0, 1, 2] : List ℚ).length ∧ traj.getD 0 0 = ![0, 1, 0] :=
  ⟨⟨by decide, by decide⟩,
    forwardModel_r_shape ![0, 1, 0] [0, 1, 2] 28 10 (8/3) (by decide) (by decide)⟩

/-- Claim C5, counterexample. The two behaviours the claim asserts for a
zero-length time array are incompatible: on the empty time array the
forward model fails (the spec's §4.1 failure policy, "Fails only if the
time array is empty or not increasing"), so it does not return a
trajectory of length 1. -/
theorem forwardModel_r_empty_counterexample :
    forwardModel_r ![0, 1, 0] ([] : List ℚ) 28 10 (8/3) = none ∧
    ¬ ∃ traj, forwardModel_r ![0, 1, 0] ([] : List ℚ) 28 10 (8/3) = some traj ∧
        traj.length = 1 := by
  refine ⟨by rw [forwardModel_r, if_neg (by decide)], ?_⟩
  rintro ⟨traj, htraj, -⟩
  rw [forwardModel_r, if_neg (by decide)] at htraj
  exact Option.noConfusion htraj

/-- Claim C5, amended. The forward model fails exactly when the time array is
empty or not increasing; and for every initial state and every
*single-entry* time array (zero integration steps), it returns only the
initial state unchanged — a trajectory of length 1. -/
theorem forwardModel_r_failure_policy (x0 : State) (time : List ℚ) (r pr b : ℚ) :
    (forwardModel_r x0 time r pr b = none ↔
      time = [] ∨ ¬ increasingQ time = true) ∧
    ∀ t0 : ℚ, forwardModel_r x0 [t0] r pr b = some [x0] := by
  constructor
  · rw [forwardModel_r]
    by_cases h : time ≠ [] ∧ increasingQ time = true
    · rw [if_pos h]
      simp only [reduceCtorEq, false_iff]
      rintro (hA | hB)
      · exact h.1 hA
      · exact hB h.2
    · rw [if_neg h]
      simp only [true_iff]
      by_cases he : time = []
      · exact Or.inl he
      · exact Or.inr (fun hc => h ⟨he, hc⟩)
  · intro t0
    rw [forwardModel_r, if_pos ⟨by simp, rfl⟩]
    simp [List.range_succ]


/-! ## The observation operator H (EnKF notebook, observation cell)

The notebook builds the observation operator from the 0/1 float array
`WhichVariablesAreObserved` (`mask` below):
```
y_size = int( np.sum( WhichVariablesAreObserved ) )
H = np.zeros( (y_size, 3) ); iy = 0
for ix in range(3):
    if WhichVariablesAreObserved[ix] > 0:
        H[iy,ix] = 1.; iy = iy + 1
```
(the preceding `H = np.diag(...)` is dead: it is overwritten immediately).
-/

/-- Python `int()` of a nonnegative rational (truncation toward zero,
which for nonnegative values is the floor). -/
def intTruncNat (q : ℚ) : ℕ := q.num.toNat / q.den

/-- Source line `y_size = int(np.sum(WhichVariablesAreObserved))`. -/
def y_size (mask : Fin 3 → ℚ) : ℕ := intTruncNat (∑ i, mask i)

/-- One iteration of the H-construction loop: if variable `ix` is observed,
write a 1 at row `iy`, column `ix`, and advance `iy`. -/
def buildHstep (mask : Fin 3 → ℚ) (p : ℕ)
    (acc : Matrix (Fin p) (Fin 3) ℚ × ℕ) (ix : Fin 3) :
    Matrix (Fin p) (Fin 3) ℚ × ℕ :=
  if 0 < mask ix then
    (Matrix.of fun i j => if i.val = acc.2 ∧ j = ix then 1 else acc.1 i j,
      acc.2 + 1)
  else acc

/-- The loop run over `ix = 0, 1, 2` starting from the zero matrix. -/
def buildH (mask : Fin 3 → ℚ) : Matrix (Fin (y_size mask)) (Fin 3) ℚ :=
  (([0, 1, 2] : List (Fin 3)).foldl (buildHstep mask (y_size mask)) (0, 0)).1

/-- The list of observed variable indices, in loop order. -/
def obsList (mask : Fin 3 → ℚ) : List (Fin 3) :=
  ([0, 1, 2] : List (Fin 3)).filter (fun ix => decide (0 < mask ix))

/-- The selection matrix determined by a list of observed indices: row `i`
has a single 1 in column `obs[i]` (rows past the end of `obs` are zero). -/
def selMatrix (p : ℕ) (obs : List (Fin 3)) : Matrix (Fin p) (Fin 3) ℚ :=
  Matrix.of fun i j => if obs[i.val]? = some j then 1 else 0

theorem selMatrix_empty (p : ℕ) : selMatrix p [] = 0 := by
  ext i j
  simp [selMatrix]

theorem getElem?_mem_list {α : Type} (l : List α) (n : ℕ) (a : α)
    (h : l[n]? = some a) : a ∈ l := by
  have hn : n < l.length := by
    by_contra hc
    rw [List.getElem?_eq_none (by omega)] at h
    exact Option.noConfusion h
  rw [List.getElem?_eq_getElem hn] at h
  exact (Option.some_inj.mp h) ▸ l.getElem_mem hn

theorem buildHstep_sel (mask : Fin 3 → ℚ) (p : ℕ) (obs : List (Fin 3)) (ix : Fin 3) :
    buildHstep mask p (selMatrix p obs, obs.length) ix =
      (selMatrix p (obs ++ (if 0 < mask ix then [ix] else [])),
        (obs ++ (if 0 < mask ix then [ix] else [])).length) := by
  by_cases h : 0 < mask ix
  · rw [buildHstep, if_pos h]
    simp only [if_pos h]
    refine Prod.ext ?_ (by simp)
    ext i j
    simp only [Matrix.of_apply, selMatrix]
    by_cases hc : i.val = obs.length ∧ j = ix
    · rw [if_pos hc, hc.1, hc.2, List.getElem?_concat_length, if_pos rfl]
    · rw [if_neg hc]
      rcases lt_trichotomy i.val obs.length with hlt | heq | hgt
      · rw [List.getElem?_append_left hlt]
      · have hj : j ≠ ix := fun hj => hc ⟨heq, hj⟩
        rw [heq, List.getElem?_concat_length, List.getElem?_eq_none (le_refl _),
          if_neg (by intro hh; exact Option.noConfusion hh),
          if_neg (by intro hh; exact hj (Option.some_inj.mp hh).symm)]
      · rw [List.getElem?_eq_none (by omega),
          List.getElem?_eq_none (by rw [List.length_append]; simp; omega)]
  · rw [buildHstep, if_neg h]
    simp only [if_neg h]
    simp

theorem buildH_foldl (mask : Fin 3 → ℚ) (p : ℕ) (l : List (Fin 3)) :
    ∀ obs : List (Fin 3),
      l.foldl (buildHstep mask p) (selMatrix p obs, obs.length) =
        (selMatrix p (obs ++ l.filter (fun ix => decide (0 < mask ix))),
          (obs ++ l.filter (fun ix => decide (0 < mask ix))).length) := by
  induction l with
  | nil => intro obs; simp
  | cons ix l ih =>
    intro obs
    rw [List.foldl_cons, buildHstep_sel, ih]
    by_cases h : 0 < mask ix
    · simp [List.filter_cons, h]
    · simp [List.filter_cons, h]

/-- The built matrix `buildH` equals the selection matrix of the observed-index list. -/
theorem buildH_eq_selMatrix (mask : Fin 3 → ℚ) :
    buildH mask = selMatrix (y_size mask) (obsList mask) := by
  have h0 : ((0 : Matrix (Fin (y_size mask)) (Fin 3) ℚ), (0 : ℕ)) =
      (selMatrix (y_size mask) [], ([] : List (Fin 3)).length) := by
    rw [selMatrix_empty]
    rfl
  rw [buildH, h0, buildH_foldl]
  rfl

/-- Under a 0/1 mask, `y_size` counts the observed variables, so the row
count of H agrees with the height of every observation vector. -/
theorem y_size_eq_length (mask : Fin 3 → ℚ)
    (hmask : ∀ i, mask i = 0 ∨ mask i = 1) :
    y_size mask = (obsList mask).length := by
  rcases hmask 0 with h0 | h0 <;> rcases hmask 1 with h1 | h1 <;>
    rcases hmask 2 with h2 | h2 <;>
  · have hs : (∑ i, mask i) = ((obsList mask).length : ℚ) := by
      rw [Fin.sum_univ_three, h0, h1, h2]
      norm_num [obsList, List.filter, h0, h1, h2]
    rw [y_size, hs, intTruncNat]
    simp

/-- Claim C6. Throughout a run, the observation operator H is a fixed 0/1
selection matrix: every entry is 0 or 1, each row selects exactly one
observed state component, and H's row count `y_size` equals the length of
the observation vector at every assimilation step (every column of the
observation array has height `y_size`, the number of observed components).
H is a pure value constructed once and passed unchanged to the catalog
construction and to the filter. -/
theorem H_is_selection_matrix (mask : Fin 3 → ℚ)
    (hmask : ∀ i, mask i = 0 ∨ mask i = 1) :
    (∀ i j, buildH mask i j = 0 ∨ buildH mask i j = 1) ∧
    (∀ i : Fin (y_size mask), ∃! j, buildH mask i j = 1) ∧
    (∀ i j, buildH mask i j = 1 → mask j = 1) ∧
    y_size mask = (obsList mask).length := by
  have hb := buildH_eq_selMatrix mask
  have hy := y_size_eq_length mask hmask
  refine ⟨?_, ?_, ?_, hy⟩
  · intro i j
    rw [hb]
    by_cases h : (obsList mask)[i.val]? = some j
    · exact Or.inr (by simp [selMatrix, h])
    · exact Or.inl (by simp [selMatrix, h])
  · intro i
    have hi : i.val < (obsList mask).length := hy ▸ i.isLt
    refine ⟨(obsList mask).get ⟨i.val, hi⟩, ?_, ?_⟩
    · rw [hb]
      simp [selMatrix, List.getElem?_eq_getElem hi]
    · intro y hyy
      rw [hb] at hyy
      simp only [selMatrix, Matrix.of_apply, List.getElem?_eq_getElem hi] at hyy
      by_cases hj : ((obsList mask).get ⟨i.val, hi⟩ : Fin 3) = y
      · exact hj.symm
      · rw [if_neg (by simpa using hj)] at hyy
        norm_num at hyy
  · intro i j h1
    rw [hb] at h1
    simp only [selMatrix, Matrix.of_apply] at h1
    by_cases h : (obsList mask)[i.val]? = some j
    · have hj : j ∈ obsList mask := getElem?_mem_list _ _ _ h
      simp only [obsList] at hj
      have hpos : 0 < mask j := of_decide_eq_true (List.mem_filter.mp hj).2
      rcases hmask j with hz | ho
      · rw [hz] at hpos
        exact absurd hpos (lt_irrefl 0)
      · exact ho
    · rw [if_neg h] at h1
      norm_num at h1

/-- Witness for C6 at the notebook's mask `[1, 1, 1]`. -/
theorem H_is_selection_matrix_check :
    (∀ i, (![1, 1, 1] : Fin 3 → ℚ) i = 0 ∨ (![1, 1, 1] : Fin 3 → ℚ) i = 1) ∧
    ((∀ i j, buildH ![1, 1, 1] i j = 0 ∨ buildH ![1, 1, 1] i j = 1) ∧
     (∀ i : Fin (y_size ![1, 1, 1]), ∃! j, buildH ![1, 1, 1] i j = 1) ∧
     (∀ i j, buildH ![1, 1, 1] i j = 1 → (![1, 1, 1] : Fin 3 → ℚ) j = 1) ∧
     y_size ![1, 1, 1] = (obsList ![1, 1, 1]).length) :=
  ⟨by decide, H_is_selection_matrix ![1, 1, 1] (by decide)⟩

/-! ## The synthetic observation catalog (EnKF notebook, lines 119–132)

```
nobs = int( np.ceil( T / dtobs ) ) - 1   # "no observation at t=0"
gap  = int( dtobs/dt )
time_obs = time[gap::gap]
y = np.zeros( (y_size, nobs) )
R = np.diag( np.tile(sigobs**2, y_size) )
sqrt_s = np.sqrt(R)
y = np.dot( H, xt[:,gap::gap] )
noise = np.dot(sqrt_s , np.random.normal( loc=0., scale=1.0, size=np.shape(y) ) )
y = y + noise
```
with `n_steps = int(np.ceil(T/dt))` and `time` of length `n_steps + 1` from
the reference-trajectory cell.  `np.random.normal` reads the process-wide
NumPy random state; no seed or generator object is passed anywhere.
-/

/-- Composition `int(np.ceil(q))` for a nonnegative rational `q`. -/
def qCeilNat (q : ℚ) : ℕ := (q.num.toNat + q.den - 1) / q.den

/-- Source line `n_steps = int(np.ceil(T/dt))`. -/
def n_stepsOf (T dt : ℚ) : ℕ := qCeilNat (T / dt)

/-- Source line `gap = int(dtobs/dt)`: the number of integration steps between
consecutive observations. -/
def gapOf (dtobs dt : ℚ) : ℕ := intTruncNat (dtobs / dt)

/-- Source line `nobs = int(np.ceil(T/dtobs)) - 1`: the notebook's count of
observation times ("no observation at t=0"). -/
def nobsOf (T dtobs : ℚ) : ℕ := qCeilNat (T / dtobs) - 1

/-- The integration-step indices selected by the slice `time[gap::gap]`
of the length-`n_steps + 1` time array: steps `gap, 2*gap, …` up to
`n_steps`. -/
def obsStepIndices (n_steps gap : ℕ) : List ℕ :=
  (List.range (n_steps / gap)).map (fun k => (k + 1) * gap)

/-- One call of `np.random.normal(loc=0., scale=1.0, size=(p, m))` against
the process-wide NumPy random state, modelled as a stream `g` of standard
normal draws plus the stream position `s` (the global state): the call
fills the `p × m` array in row-major order with the draws
`g s, g (s+1), …` and advances the global position by `p*m`.  The position
is process state: the source passes no seed and no generator object. -/
def normalGlobal (g : ℕ → ℚ) (s : ℕ) (p m : ℕ) :
    Matrix (Fin p) (Fin m) ℚ × ℕ :=
  (Matrix.of fun i j => g (s + i.val * m + j.val), s + p * m)

/-- Source line `R = np.diag(np.tile(sigobs**2, y_size))`: the observation-noise
covariance, diagonal with every entry `sigobs²`, of size the number of
observed components. -/
def Rdiag (p : ℕ) (sigobs : ℚ) : Matrix (Fin p) (Fin p) ℚ :=
  Matrix.diagonal (fun _ => sigobs ^ 2)

/-- Source line `sqrt_s = np.sqrt(R)`: the entrywise square root of `Rdiag`, which for
`sigobs ≥ 0` (the driver uses `sigobs = 2`) is the diagonal matrix with
entries `sigobs` — the closed form embedded here, square roots not being
rational in general. -/
def sqrtRdiag (p : ℕ) (sigobs : ℚ) : Matrix (Fin p) (Fin p) ℚ :=
  Matrix.diagonal (fun _ => sigobs)

/-- Lines 124–132: the observation catalog `y = H xt[:, gap::gap] + noise`,
`noise = sqrt_s @ np.random.normal(size=(p, m))` drawn from the global
stream at position `s`; returns the catalog together with the advanced
global stream position.  `m` is the number of columns of the slice
(`n_steps / gap`), `xt` the true trajectory by integration step. -/
def obsCatalog (p m gap : ℕ) (H : Matrix (Fin p) (Fin 3) ℚ) (xt : ℕ → State)
    (sigobs : ℚ) (g : ℕ → ℚ) (s : ℕ) : Matrix (Fin p) (Fin m) ℚ × ℕ :=
  let yH : Matrix (Fin p) (Fin m) ℚ :=
    Matrix.of fun i c => ∑ j, H i j * xt ((c.val + 1) * gap) j
  let draw := normalGlobal g s p m
  (yH + sqrtRdiag p sigobs * draw.1, draw.2)

/-- The catalog entries in closed form, and the advance of the global
stream position. -/
theorem obsCatalog_apply (p m gap : ℕ) (H : Matrix (Fin p) (Fin 3) ℚ)
    (xt : ℕ → State) (sigobs : ℚ) (g : ℕ → ℚ) (s : ℕ) :
    (∀ i c, (obsCatalog p m gap H xt sigobs g s).1 i c =
        (∑ j, H i j * xt ((c.val + 1) * gap) j) +
          sigobs * g (s + i.val * m + c.val)) ∧
    (obsCatalog p m gap H xt sigobs g s).2 = s + p * m := by
  refine ⟨fun i c => ?_, rfl⟩
  simp [obsCatalog, normalGlobal, sqrtRdiag, Matrix.add_apply,
    Matrix.diagonal_mul]

/-- A concrete observation operator for counterexample runs: one row, all
ones. -/
def cexH : Matrix (Fin 1) (Fin 3) ℚ := Matrix.of fun _ _ => 1

/-- A concrete (zero) true trajectory for counterexample runs. -/
def cexXt : ℕ → State := fun _ _ => 0

/-- A concrete injective global draw stream for counterexample runs. -/
def cexG : ℕ → ℚ := fun n => (n : ℚ)

/-- Claim C7, counterexample. No noise-drawing function in the source takes a
seed or generator parameter: `np.random.normal` reads and advances the
process-wide stream.  Consequently two runs of the observation-catalog
code in the same process (the second starting from the global stream
position the first left behind) produce different observations, refuting
"two runs given the same seed produce identical outputs" — there is no
seed to give.  Concrete instance: one observed component, one observation
time, true state ≡ 0, `sigobs = 1`, stream `g n = n` starting at
position 0. -/
theorem noise_global_state_counterexample :
    (obsCatalog 1 1 1 cexH cexXt 1 cexG 0).1 ≠
      (obsCatalog 1 1 1 cexH cexXt 1 cexG
        ((obsCatalog 1 1 1 cexH cexXt 1 cexG 0).2)).1 := by
  intro h
  have h00 := congrFun (congrFun h 0) 0
  simp [obsCatalog, normalGlobal, sqrtRdiag, cexH, cexXt, cexG,
    Matrix.add_apply, Matrix.diagonal_mul, Fin.sum_univ_three] at h00

/-- Claim C7, amended. The noise-drawing code uses the process-wide implicit
NumPy random state: the synthetic-observation noise is drawn by
`np.random.normal` with no seed or generator argument, so the catalog is a
function of the *global stream position* `s`; each run advances that
position by the number of draws (`p*m`), every entry reads the shared
stream at a position-dependent index, and two consecutive runs in the same
process produce different catalogs (whenever the stream is injective, the
noise scale is nonzero and at least one draw is made).  Reproducibility
would require resetting global state externally; no function of the run
takes an explicit seedable generator, which the spec requires of a
migrated implementation. -/
theorem noise_uses_global_stream (p m gap : ℕ) (H : Matrix (Fin p) (Fin 3) ℚ)
    (xt : ℕ → State) (sigobs : ℚ) (g : ℕ → ℚ) (s : ℕ)
    (hg : Function.Injective g) (hσ : sigobs ≠ 0) (hp : 0 < p) (hm : 0 < m) :
    (obsCatalog p m gap H xt sigobs g s).2 = s + p * m ∧
    (∀ i c, (obsCatalog p m gap H xt sigobs g s).1 i c =
        (∑ j, H i j * xt ((c.val + 1) * gap) j) +
          sigobs * g (s + i.val * m + c.val)) ∧
    (obsCatalog p m gap H xt sigobs g s).1 ≠
      (obsCatalog p m gap H xt sigobs g
        ((obsCatalog p m gap H xt sigobs g s).2)).1 := by
  obtain ⟨happly, hadv⟩ := obsCatalog_apply p m gap H xt sigobs g s
  refine ⟨hadv, happly, fun h => ?_⟩
  have h00 := congrFun (congrFun h ⟨0, hp⟩) ⟨0, hm⟩
  rw [happly,
    (obsCatalog_apply p m gap H xt sigobs g
      ((obsCatalog p m gap H xt sigobs g s).2)).1, hadv] at h00
  simp only [add_right_inj] at h00
  have heq := mul_left_cancel₀ hσ h00
  have := hg heq
  have hpm : 0 < p * m := Nat.mul_pos hp hm
  omega

/-- Witness for C7's amended theorem at a concrete input. -/
theorem noise_uses_global_stream_check :
    (Function.Injective cexG ∧ (1 : ℚ) ≠ 0 ∧ 0 < 1 ∧ 0 < 1) ∧
    ((obsCatalog 1 1 1 cexH cexXt 1 cexG 0).2 = 0 + 1 * 1 ∧
     (∀ i c, (obsCatalog 1 1 1 cexH cexXt 1 cexG 0).1 i c =
        (∑ j, cexH i j * cexXt ((c.val + 1) * 1) j) +
          1 * cexG (0 + i.val * 1 + c.val)) ∧
     (obsCatalog 1 1 1 cexH cexXt 1 cexG 0).1 ≠
      (obsCatalog 1 1 1 cexH cexXt 1 cexG
        ((obsCatalog 1 1 1 cexH cexXt 1 cexG 0).2)).1) :=
  ⟨⟨fun a b h => Nat.cast_injective h, by norm_num, by decide, by decide⟩,
    noise_uses_global_stream 1 1 1 cexH cexXt 1 cexG 0
      (fun a b h => Nat.cast_injective h) (by norm_num) (by decide) (by decide)⟩

/-- Claim C10, counterexample. At the driver's parameters `T = 25`,
`dt = 1/1000`, `dtobs = 1/2`, the slice `time[gap::gap]` contains
`n_steps / gap = 25000 / 500 = 50` observation times (steps
`500, 1000, …, 25000`), while `nobs = ceil(T/dtobs) − 1 = 49`: the number
of observation times does *not* equal `ceil(T/dtobs) − 1`.  (The variable
`nobs` undercounts the generated catalog by one whenever `dtobs` divides
`T`, because the slice also picks up the final time `T`.) -/
theorem obs_count_counterexample :
    (obsStepIndices (n_stepsOf 25 (1/1000)) (gapOf (1/2) (1/1000))).length ≠
      nobsOf 25 (1/2) := by
  have e1 : n_stepsOf 25 (1/1000) = 25000 := by
    rw [n_stepsOf, show (25 : ℚ) / (1/1000) = 25000 by norm_num]
    decide
  have e2 : gapOf (1/2) (1/1000) = 500 := by
    rw [gapOf, show (1/2 : ℚ) / (1/1000) = 500 by norm_num]
    decide
  have e3 : nobsOf 25 (1/2) = 49 := by
    rw [nobsOf, show (25 : ℚ) / (1/2) = 50 by norm_num]
    decide
  rw [e1, e2, e3, obsStepIndices]
  simp

/-- Claim C10, amended. In the driver that builds the synthetic observation
catalog, observations exist only at integration steps `gap, 2·gap, …`
(`gap = int(dtobs/dt)`) and never at step 0 (t = 0); the number of
observation times equals `n_steps / gap` (the length of the slice
`time[gap::gap]`), which is what the catalog actually contains — the
variable `nobs = ceil(T/dtobs) − 1` undercounts it by one when `dtobs`
divides `T`; each observation column `c` equals H applied to the true
state at step `(c+1)·gap` plus `sqrt(R)`-scaled standard Gaussian noise,
where `R` is the diagonal matrix with every diagonal entry `sigobs²` and
size equal to the number of observed components. -/
theorem obs_catalog_description (T dt dtobs sigobs : ℚ) (p : ℕ)
    (H : Matrix (Fin p) (Fin 3) ℚ) (xt : ℕ → State) (g : ℕ → ℚ) (s : ℕ)
    (hgap : 1 ≤ gapOf dtobs dt) :
    (∀ idx ∈ obsStepIndices (n_stepsOf T dt) (gapOf dtobs dt),
      ∃ k, 1 ≤ k ∧ idx = k * gapOf dtobs dt) ∧
    0 ∉ obsStepIndices (n_stepsOf T dt) (gapOf dtobs dt) ∧
    (obsStepIndices (n_stepsOf T dt) (gapOf dtobs dt)).length =
      n_stepsOf T dt / gapOf dtobs dt ∧
    (∀ i c, (obsCatalog p (n_stepsOf T dt / gapOf dtobs dt) (gapOf dtobs dt)
        H xt sigobs g s).1 i c =
      (∑ j, H i j * xt ((c.val + 1) * gapOf dtobs dt) j) +
        sigobs * g (s + i.val * (n_stepsOf T dt / gapOf dtobs dt) + c.val)) ∧
    Rdiag p sigobs = Matrix.diagonal (fun _ => sigobs ^ 2) := by
  refine ⟨?_, ?_, by simp [obsStepIndices],
    (obsCatalog_apply p _ _ H xt sigobs g s).1, rfl⟩
  · intro idx hidx
    simp only [obsStepIndices, List.mem_map, List.mem_range] at hidx
    obtain ⟨k, -, hk⟩ := hidx
    exact ⟨k + 1, Nat.le_add_left 1 k, hk.symm⟩
  · intro h0
    simp only [obsStepIndices, List.mem_map, List.mem_range] at h0
    obtain ⟨k, -, hk⟩ := h0
    have : 1 ≤ (k + 1) * gapOf dtobs dt :=
      Nat.mul_le_mul (Nat.le_add_left 1 k) hgap |>.trans_eq (by ring)
    omega

/-- Witness for C10's amended theorem at the driver's parameters. -/
theorem obs_catalog_description_check :
    1 ≤ gapOf (1/2) (1/1000) ∧
    ((∀ idx ∈ obsStepIndices (n_stepsOf 25 (1/1000)) (gapOf (1/2) (1/1000)),
      ∃ k, 1 ≤ k ∧ idx = k * gapOf (1/2) (1/1000)) ∧
    0 ∉ obsStepIndices (n_stepsOf 25 (1/1000)) (gapOf (1/2) (1/1000)) ∧
    (obsStepIndices (n_stepsOf 25 (1/1000)) (gapOf (1/2) (1/1000))).length =
      n_stepsOf 25 (1/1000) / gapOf (1/2) (1/1000) ∧
    (∀ i c, (obsCatalog 1 (n_stepsOf 25 (1/1000) / gapOf (1/2) (1/1000))
        (gapOf (1/2) (1/1000)) cexH cexXt 2 cexG 0).1 i c =
      (∑ j, cexH i j * cexXt ((c.val + 1) * gapOf (1/2) (1/1000)) j) +
        2 * cexG (0 + i.val * (n_stepsOf 25 (1/1000) / gapOf (1/2) (1/1000)) + c.val)) ∧
    Rdiag 1 2 = Matrix.diagonal (fun _ => (2:ℚ) ^ 2)) :=
  have hgap : 1 ≤ gapOf (1/2) (1/1000) := by
    rw [gapOf, show (1/2 : ℚ) / (1/1000) = 500 by norm_num]
    decide
  ⟨hgap, obs_catalog_description 25 (1/1000) (1/2) 2 1 cexH cexXt cexG 0 hgap⟩

/-! ## The ensemble Kalman filter

`myEnKF.py` is imported by the notebook but is not part of the source
tree; the filter below is modelled from the specification (§4.2).  The
notebook calls it as
`xEnKF, x_ens = myEnKF(n_steps, dt, nobs, time_obs, gap, Ne, H, R, y,
x0ens, P0, rayleigh, prandtl, b)` — note that no random generator or seed
is among the arguments.  Randomness that the spec attributes to the filter
(the initial N(0, P0) ensemble draws and the per-member observation
perturbations) is modelled as explicit draw streams `initPert` /
`obsPert`; their distributions are not expressible in the embedding, and
`P0 = 0` (`sigens = 0`) corresponds to `initPert ≡ 0`. -/

/-- Ensemble mean (spec §4.2 step 2). -/
def ensMean (Ne : ℕ) (ens : ℕ → State) : State :=
  fun i => (∑ e in Finset.range Ne, ens e i) / (Ne : ℚ)

/-- Modelled from the spec: the forecast error covariance used by the
filter, in implementation form — the 3×Ne deviations matrix times its
transpose, normalized by `Ne − 1`. -/
def forecastCov (Ne : ℕ) (ens : ℕ → State) : Matrix (Fin 3) (Fin 3) ℚ :=
  let A : Matrix (Fin 3) (Fin Ne) ℚ :=
    Matrix.of fun i e => ens e.val i - ensMean Ne ens i
  ((Ne : ℚ) - 1)⁻¹ • (A * A.transpose)

/-- The unbiased sample covariance as the spec words it: for each pair of
components, the sum over members of the products of deviations from the
ensemble mean, divided by `Ne − 1`. -/
def unbiasedSampleCov (Ne : ℕ) (ens : ℕ → State) : Matrix (Fin 3) (Fin 3) ℚ :=
  Matrix.of fun i j =>
    (∑ e in Finset.range Ne,
      (ens e i - ensMean Ne ens i) * (ens e j - ensMean Ne ens j)) /
      ((Ne : ℚ) - 1)

/-- Matrix inverse over ℚ (adjugate over determinant).  The spec declares
a singular innovation covariance a fatal numerical error with no retry;
the singular branch (returning 0) stands for that aborted state and is
not reached by any claim. -/
def matInv {n : ℕ} (A : Matrix (Fin n) (Fin n) ℚ) : Matrix (Fin n) (Fin n) ℚ :=
  if A.det = 0 then 0 else A.det⁻¹ • A.adjugate

/-- Modelled from the spec: the Kalman gain
`K = P Hᵀ (H P Hᵀ + R)⁻¹` (§4.2 step 3). -/
def kalmanGain (p : ℕ) (H : Matrix (Fin p) (Fin 3) ℚ)
    (R : Matrix (Fin p) (Fin p) ℚ) (P : Matrix (Fin 3) (Fin 3) ℚ) :
    Matrix (Fin 3) (Fin p) ℚ :=
  P * H.transpose * matInv (H * P * H.transpose + R)

/-- All the per-run inputs of the filter, typed.  `ycols c` is the
observation column for assimilation cycle `c`; `obsPert c e` is member
`e`'s observation perturbation at cycle `c`; `initPert e` is member `e`'s
initial-ensemble draw. -/
structure EnKFSetup (p : ℕ) where
  dt : ℚ
  r : ℚ
  pr : ℚ
  b : ℚ
  gap : ℕ
  Ne : ℕ
  nobs : ℕ
  H : Matrix (Fin p) (Fin 3) ℚ
  R : Matrix (Fin p) (Fin p) ℚ
  ycols : ℕ → Fin p → ℚ
  x0 : State
  initPert : ℕ → State
  obsPert : ℕ → ℕ → Fin p → ℚ

/-- One assimilation cycle (spec §4.2 steps 1–4): advance every member
`gap` RK4 steps from the previous assimilation time, compute the forecast
covariance and the Kalman gain from the propagated ensemble, then correct
each member with its own perturbed observation:
`x ← x + K (y + pert − H x)`. -/
def enkfCycle (p : ℕ) (S : EnKFSetup p) (c : ℕ) (ens : ℕ → State) :
    ℕ → State :=
  let xf : ℕ → State := fun e => (rk4Step S.dt S.r S.pr S.b)^[S.gap] (ens e)
  let K := kalmanGain p S.H S.R (forecastCov S.Ne xf)
  fun e => xf e + K.mulVec (fun i => S.ycols c i + S.obsPert c e i - S.H.mulVec (xf e) i)

/-- The ensemble held right after `c` assimilation cycles; cycle 0 is the
initial ensemble (mean plus per-member initial draw). -/
def ensAfterCycle (p : ℕ) (S : EnKFSetup p) : ℕ → ℕ → State
  | 0 => fun e => S.x0 + S.initPert e
  | c + 1 => enkfCycle p S c (ensAfterCycle p S c)

/-- The full per-member record at every integration step (spec §4.2
step 5): at step `n` the members continue deterministically from the
latest assimilation update at or before `n` (at an assimilation step the
recorded state is the post-update one). -/
def ensAtStep (p : ℕ) (S : EnKFSetup p) (n : ℕ) : ℕ → State :=
  let c := min (n / S.gap) S.nobs
  fun e => (rk4Step S.dt S.r S.pr S.b)^[n - c * S.gap] (ensAfterCycle p S c e)

/-- The returned pair `(xEnKF, x_ens)`: the ensemble-mean trajectory and
every member's trajectory, by integration step. -/
def enkfCore (p : ℕ) (S : EnKFSetup p) : (ℕ → State) × (ℕ → ℕ → State) :=
  (fun n => ensMean S.Ne (ensAtStep p S n), ensAtStep p S)

/-- Modelled from the spec: the filter's untyped entry point, with the
call signature of the notebook's
`myEnKF(n_steps, dt, nobs, time_obs, gap, Ne, H, R, y, x0ens, P0,
rayleigh, prandtl, b)` plus the explicit draw streams (`initPert` for the
initial N(0, P0) ensemble spread, `obsPert` for the per-member
observation perturbations).  Per the spec's §7 failure policy it fails
fast — before any computation — on malformed shapes (state vector not of
length 3, observation-operator row count mismatching an observation
column's length), and per §9 it bounds the ensemble size away from the
undefined `Ne = 1` sample covariance instead of silently dividing by
zero.  `n_steps` and `time_obs` size the recorded arrays and are not
otherwise used; `P0` enters only through the distribution of `initPert`,
which the embedding takes as the stream itself. -/
def myEnKF (n_steps : ℕ) (dt : ℚ) (nobs : ℕ) (time_obs : List ℚ)
    (gap Ne : ℕ) (H R y : List (List ℚ)) (x0ens : List ℚ)
    (P0 : List (List ℚ)) (rayleigh prandtl b : ℚ)
    (initPert : ℕ → State) (obsPert : ℕ → ℕ → ℕ → ℚ) :
    Except String ((ℕ → State) × (ℕ → ℕ → State)) :=
  if x0ens.length ≠ 3 then
    Except.error "state vector must have length 3"
  else if y.any (fun col => decide (col.length ≠ H.length)) then
    Except.error "observation operator row count mismatches observation vector length"
  else if Ne < 2 then
    Except.error "ensemble size must be at least 2: Ne - 1 would vanish"
  else
    Except.ok (enkfCore H.length
      { dt := dt
        r := rayleigh
        pr := prandtl
        b := b
        gap := gap
        Ne := Ne
        nobs := nobs
        H := Matrix.of fun i j => (H.getD i.val []).getD j.val 0
        R := Matrix.of fun i j => (R.getD i.val []).getD j.val 0
        ycols := fun c i => (y.getD c []).getD i.val 0
        x0 := fun i => x0ens.getD i.val 0
        initPert := initPert
        obsPert := fun c e i => obsPert c e i.val })

/-- Claim C8. If the filter's inputs have malformed shapes — a state vector
not of length 3, or an observation operator whose row count mismatches an
observation vector's length — the filter fails fast with a descriptive
error before performing any computation: the entry point returns the
error without constructing any trajectory. -/
theorem myEnKF_fail_fast (n_steps : ℕ) (dt : ℚ) (nobs : ℕ)
    (time_obs : List ℚ) (gap Ne : ℕ) (H R y : List (List ℚ))
    (x0ens : List ℚ) (P0 : List (List ℚ)) (rayleigh prandtl b : ℚ)
    (initPert : ℕ → State) (obsPert : ℕ → ℕ → ℕ → ℚ)
    (hbad : x0ens.length ≠ 3 ∨ ∃ col ∈ y, col.length ≠ H.length) :
    ∃ msg, myEnKF n_steps dt nobs time_obs gap Ne H R y x0ens P0
      rayleigh prandtl b initPert obsPert = Except.error msg := by
  rcases hbad with hx | ⟨col, hcol, hlen⟩
  · exact ⟨_, by rw [myEnKF, if_pos hx]⟩
  · by_cases hx : x0ens.length ≠ 3
    · exact ⟨_, by rw [myEnKF, if_pos hx]⟩
    · have hany : y.any (fun col => decide (col.length ≠ H.length)) = true :=
        List.any_eq_true.mpr ⟨col, hcol, decide_eq_true hlen⟩
      exact ⟨_, by rw [myEnKF, if_neg hx, if_pos hany]⟩

/-- Witness for C8: a state vector of length 2 is rejected. -/
theorem myEnKF_fail_fast_check :
    (([0, 0] : List ℚ).length ≠ 3 ∨
      ∃ col ∈ ([] : List (List ℚ)), col.length ≠ ([] : List (List ℚ)).length) ∧
    ∃ msg, myEnKF 0 1 0 [] 1 2 [] [] [] [0, 0] [] 1 1 1
      (fun _ => 0) (fun _ _ _ => 0) = Except.error msg :=
  ⟨Or.inl (by decide),
    myEnKF_fail_fast 0 1 0 [] 1 2 [] [] [] [0, 0] [] 1 1 1
      (fun _ => 0) (fun _ _ _ => 0) (Or.inl (by decide))⟩

/-- Claim C4. With ensemble size `Ne ≥ 2`, the forecast error covariance
used by the filter (deviations matrix times its transpose over `Ne − 1`)
equals the unbiased sample covariance of the ensemble exactly as the spec
words it; and for `Ne = 1` — for which the `Ne − 1` normalization is
undefined — the filter does not silently divide by zero: its entry point
rejects the ensemble size with an error (given otherwise well-formed
shapes). -/
theorem forecastCov_is_unbiased_sample_cov (Ne : ℕ) (ens : ℕ → State)
    (n_steps : ℕ) (dt : ℚ) (nobs : ℕ) (time_obs : List ℚ) (gap : ℕ)
    (H R y : List (List ℚ)) (x0ens : List ℚ) (P0 : List (List ℚ))
    (rayleigh prandtl b : ℚ) (initPert : ℕ → State)
    (obsPert : ℕ → ℕ → ℕ → ℚ) (hNe : 2 ≤ Ne) (hx0 : x0ens.length = 3)
    (hy : ∀ col ∈ y, col.length = H.length) :
    forecastCov Ne ens = unbiasedSampleCov Ne ens ∧
    myEnKF n_steps dt nobs time_obs gap 1 H R y x0ens P0 rayleigh prandtl b
      initPert obsPert =
      Except.error "ensemble size must be at least 2: Ne - 1 would vanish" := by
  constructor
  · ext i j
    simp only [forecastCov, unbiasedSampleCov, Matrix.smul_apply,
      Matrix.of_apply, Matrix.mul_apply, Matrix.transpose_apply, smul_eq_mul]
    rw [Fin.sum_univ_eq_sum_range
      (fun e => (ens e i - ensMean Ne ens i) * (ens e j - ensMean Ne ens j)) Ne,
      inv_mul_eq_div]
  · have h1 : ¬ x0ens.length ≠ 3 := by simp [hx0]
    have h2 : ¬ y.any (fun col => decide (col.length ≠ H.length)) = true := by
      intro h
      obtain ⟨col, hcol, hp⟩ := List.any_eq_true.mp h
      exact (of_decide_eq_true hp) (hy col hcol)
    rw [myEnKF, if_neg h1, if_neg h2, if_pos (by omega : (1 : ℕ) < 2)]

/-- Witness for C4 at a concrete input. -/
theorem forecastCov_is_unbiased_sample_cov_check :
    ((2 : ℕ) ≤ 2 ∧ ([0, 0, 0] : List ℚ).length = 3 ∧
      ∀ col ∈ [[(5 : ℚ)]], col.length = [[(1 : ℚ), 0, 0]].length) ∧
    (forecastCov 2 (fun _ _ => 0) = unbiasedSampleCov 2 (fun _ _ => 0) ∧
     myEnKF 0 1 0 [] 1 1 [[1, 0, 0]] [[1]] [[5]] [0, 0, 0] [] 1 1 1
       (fun _ => 0) (fun _ _ _ => 0) =
       Except.error "ensemble size must be at least 2: Ne - 1 would vanish") :=
  ⟨⟨by decide, by decide, by decide⟩,
    forecastCov_is_unbiased_sample_cov 2 (fun _ _ => 0) 0 1 0 [] 1
      [[1, 0, 0]] [[1]] [[5]] [0, 0, 0] [] 1 1 1 (fun _ => 0)
      (fun _ _ _ => 0) (by decide) (by decide) (by decide)⟩

/-- Claim C3. At every assimilation cycle the filter computes the Kalman
gain `K = P_f Hᵀ (H P_f Hᵀ + R)⁻¹` from the forecast covariance of the
propagated ensemble and replaces each member's forecast `x` by
`x + K (y_perturbed_member − H x)`, where member `e`'s perturbed
observation is the actual observation column plus member `e`'s own
perturbation draw; the post-update ensemble mean is the recorded estimate
at that assimilation step, and the post-update ensemble is the starting
point of the next propagation (the recorded members at the following
steps are its deterministic continuations). -/
theorem enkf_assimilation_cycle (p : ℕ) (S : EnKFSetup p) (c : ℕ)
    (hgap : 1 ≤ S.gap) (hc : c + 1 ≤ S.nobs) :
    (∀ e, ensAfterCycle p S (c + 1) e =
      (rk4Step S.dt S.r S.pr S.b)^[S.gap] (ensAfterCycle p S c e) +
      (forecastCov S.Ne
          (fun e2 => (rk4Step S.dt S.r S.pr S.b)^[S.gap] (ensAfterCycle p S c e2)) *
        S.H.transpose *
        matInv (S.H *
          forecastCov S.Ne
            (fun e2 => (rk4Step S.dt S.r S.pr S.b)^[S.gap] (ensAfterCycle p S c e2)) *
          S.H.transpose + S.R)).mulVec
        (fun i => S.ycols c i + S.obsPert c e i -
          S.H.mulVec ((rk4Step S.dt S.r S.pr S.b)^[S.gap] (ensAfterCycle p S c e)) i)) ∧
    (enkfCore p S).1 ((c + 1) * S.gap) = ensMean S.Ne (ensAfterCycle p S (c + 1)) ∧
    (∀ k, k < S.gap → ∀ e, (enkfCore p S).2 ((c + 1) * S.gap + k) e =
      (rk4Step S.dt S.r S.pr S.b)^[k] (ensAfterCycle p S (c + 1) e)) := by
  have hgap0 : 0 < S.gap := hgap
  have hdiv : ∀ k, k < S.gap → ((c + 1) * S.gap + k) / S.gap = c + 1 := by
    intro k hk
    rw [Nat.add_comm, Nat.add_mul_div_right _ _ hgap0, Nat.div_eq_of_lt hk]
    omega
  have hstep : ∀ k, k < S.gap → ∀ e,
      ensAtStep p S ((c + 1) * S.gap + k) e =
        (rk4Step S.dt S.r S.pr S.b)^[k] (ensAfterCycle p S (c + 1) e) := by
    intro k hk e
    simp only [ensAtStep]
    rw [hdiv k hk, min_eq_left hc]
    congr 1
    omega
  refine ⟨?_, ?_, hstep⟩
  · intro e
    rfl
  · have h0 : ∀ e, ensAtStep p S ((c + 1) * S.gap) e = ensAfterCycle p S (c + 1) e := by
      intro e
      have hh := hstep 0 hgap0 e
      rw [Nat.add_zero] at hh
      simpa using hh
    simp only [enkfCore]
    exact congrArg (ensMean S.Ne) (funext h0)

/-- A concrete setup for witness runs: full single-component observation,
unit parameters, two members, one cycle. -/
def cexSetup : EnKFSetup 1 where
  dt := 1
  r := 1
  pr := 1
  b := 1
  gap := 1
  Ne := 2
  nobs := 1
  H := cexH
  R := Matrix.of fun _ _ => 1
  ycols := fun _ _ => 0
  x0 := fun _ => 0
  initPert := fun _ => 0
  obsPert := fun _ _ _ => 0

/-- Witness for C3 at the concrete setup, cycle 0. -/
theorem enkf_assimilation_cycle_check :
    (1 ≤ cexSetup.gap ∧ 0 + 1 ≤ cexSetup.nobs) ∧
    ((∀ e, ensAfterCycle 1 cexSetup (0 + 1) e =
      (rk4Step cexSetup.dt cexSetup.r cexSetup.pr cexSetup.b)^[cexSetup.gap]
        (ensAfterCycle 1 cexSetup 0 e) +
      (forecastCov cexSetup.Ne
          (fun e2 => (rk4Step cexSetup.dt cexSetup.r cexSetup.pr cexSetup.b)^[cexSetup.gap]
            (ensAfterCycle 1 cexSetup 0 e2)) *
        cexSetup.H.transpose *
        matInv (cexSetup.H *
          forecastCov cexSetup.Ne
            (fun e2 => (rk4Step cexSetup.dt cexSetup.r cexSetup.pr cexSetup.b)^[cexSetup.gap]
              (ensAfterCycle 1 cexSetup 0 e2)) *
          cexSetup.H.transpose + cexSetup.R)).mulVec
        (fun i => cexSetup.ycols 0 i + cexSetup.obsPert 0 e i -
          cexSetup.H.mulVec
            ((rk4Step cexSetup.dt cexSetup.r cexSetup.pr cexSetup.b)^[cexSetup.gap]
              (ensAfterCycle 1 cexSetup 0 e)) i)) ∧
    (enkfCore 1 cexSetup).1 ((0 + 1) * cexSetup.gap) =
      ensMean cexSetup.Ne (ensAfterCycle 1 cexSetup (0 + 1)) ∧
    (∀ k, k < cexSetup.gap → ∀ e,
      (enkfCore 1 cexSetup).2 ((0 + 1) * cexSetup.gap + k) e =
        (rk4Step cexSetup.dt cexSetup.r cexSetup.pr cexSetup.b)^[k]
          (ensAfterCycle 1 cexSetup (0 + 1) e))) :=
  ⟨⟨by decide, by decide⟩,
    enkf_assimilation_cycle 1 cexSetup 0 (by decide) (by decide)⟩

/-- A constant ensemble has zero forecast covariance. -/
theorem forecastCov_const (Ne : ℕ) (ens : ℕ → State)
    (h : ∀ e e2, ens e = ens e2) : forecastCov Ne ens = 0 := by
  have hA : (Matrix.of fun i (e : Fin Ne) => ens e.val i - ensMean Ne ens i) =
      (0 : Matrix (Fin 3) (Fin Ne) ℚ) := by
    rcases Nat.eq_zero_or_pos Ne with h0 | hpos
    · subst h0
      ext i e
      exact e.elim0
    · ext i e
      have hcong : ∀ e2 ∈ Finset.range Ne, ens e2 i = ens e.val i :=
        fun e2 _ => congrFun (h e2 e.val) i
      have hmean : ensMean Ne ens i = ens e.val i := by
        simp only [ensMean]
        rw [Finset.sum_congr rfl hcong, Finset.sum_const, Finset.card_range,
          nsmul_eq_mul]
        exact mul_div_cancel_left₀ _ (Nat.cast_ne_zero.mpr (Nat.pos_iff_ne_zero.mp hpos))
      simp [Matrix.of_apply, Matrix.zero_apply, hmean]
  have hunfold : forecastCov Ne ens =
      ((Ne : ℚ) - 1)⁻¹ •
        ((Matrix.of fun i (e : Fin Ne) => ens e.val i - ensMean Ne ens i) *
          (Matrix.of fun i (e : Fin Ne) => ens e.val i - ensMean Ne ens i).transpose) :=
    rfl
  rw [hunfold, hA]
  simp

/-- A cycle maps a degenerate (all-members-equal) ensemble to a degenerate
one: the forecast covariance vanishes, hence the gain vanishes, hence the
member-dependent perturbed observations contribute nothing. -/
theorem enkfCycle_const (p : ℕ) (S : EnKFSetup p) (c : ℕ) (ens : ℕ → State)
    (h : ∀ e e2, ens e = ens e2) :
    ∀ e e2, enkfCycle p S c ens e = enkfCycle p S c ens e2 := by
  intro e e2
  have hxf : ∀ a a2 : ℕ,
      (rk4Step S.dt S.r S.pr S.b)^[S.gap] (ens a) =
        (rk4Step S.dt S.r S.pr S.b)^[S.gap] (ens a2) :=
    fun a a2 => congrArg _ (h a a2)
  have hP : forecastCov S.Ne
      (fun a => (rk4Step S.dt S.r S.pr S.b)^[S.gap] (ens a)) = 0 :=
    forecastCov_const _ _ hxf
  have hK : kalmanGain p S.H S.R 0 = 0 := by
    rw [kalmanGain, Matrix.zero_mul, Matrix.zero_mul]
  simp only [enkfCycle]
  rw [hP, hK]
  simp only [Matrix.zero_mulVec, add_zero]
  exact hxf e e2

/-- Claim C9. If the initial ensemble has zero spread (`sigma_ens = 0`, so
every member's initial draw is zero and all members start identical) and
there is no process noise (the model has none), then the ensemble stays
degenerate at every integration step of the run: all members are
identical throughout, at and between all assimilation cycles, whatever
the per-member observation perturbations are. -/
theorem enkf_zero_spread_degenerate (p : ℕ) (S : EnKFSetup p)
    (hinit : ∀ e, S.initPert e = 0) :
    ∀ n e e2, (enkfCore p S).2 n e = (enkfCore p S).2 n e2 := by
  have hcycle : ∀ c e e2, ensAfterCycle p S c e = ensAfterCycle p S c e2 := by
    intro c
    induction c with
    | zero =>
      intro e e2
      simp only [ensAfterCycle, hinit e, hinit e2]
    | succ c ih =>
      exact fun e e2 => enkfCycle_const p S c _ ih e e2
  intro n e e2
  simp only [enkfCore, ensAtStep]
  exact congrArg _ (hcycle _ e e2)

/-- Witness for C9 at the concrete setup. -/
theorem enkf_zero_spread_degenerate_check :
    (∀ e, cexSetup.initPert e = 0) ∧
    ∀ n e e2, (enkfCore 1 cexSetup).2 n e = (enkfCore 1 cexSetup).2 n e2 :=
  ⟨fun _ => rfl, enkf_zero_spread_degenerate 1 cexSetup (fun _ => rfl)⟩

end MagneticEarth
